import Mathlib

/-!
Verification of the rCore-style teaching kernel (os/ and easy-fs/ crates)
against its natural-language specification.  Each Rust function named in a
claim is shallowly embedded as an executable Lean definition operating on an
explicit state; machine integers (`usize`, `u64`, `u32`) are embedded as `Nat`
with explicit modular arithmetic where overflow or truncation matters, and
code paths that panic are embedded as `Option`/`Except` failures.
-/

set_option autoImplicit false

namespace RCoreSpec

/-! ## Frame allocator (`os/src/mm/frame_allocator.rs`) -/

/-- `StackFrameAllocator`: the stack-style physical frame allocator.  The
`recycled` `Vec` is embedded as a list whose head is the top of the stack
(the most recently pushed page number), so `Vec::push` is cons and
`Vec::pop` takes the head. -/
structure StackFrameAllocator where
  current : Nat
  endPpn : Nat
  recycled : List Nat
deriving DecidableEq

/-- `StackFrameAllocator::alloc`: pop the recycle stack if non-empty, else
hand out `current` and bump it, else fail (`None`). -/
def StackFrameAllocator.alloc (a : StackFrameAllocator) :
    Option (Nat × StackFrameAllocator) :=
  match a.recycled with
  | ppn :: rest => some (ppn, { a with recycled := rest })
  | [] =>
    if a.current = a.endPpn then none
    else some (a.current, { a with current := a.current + 1 })

/-- `StackFrameAllocator::dealloc`: panic (`none`) when `ppn >= current` or
`ppn` is already on the recycle stack, else push `ppn`. -/
def StackFrameAllocator.dealloc (a : StackFrameAllocator) (ppn : Nat) :
    Option StackFrameAllocator :=
  if a.current ≤ ppn ∨ ppn ∈ a.recycled then none
  else some { a with recycled := ppn :: a.recycled }

/-- `FrameTracker::new`: the page-cleaning loop writes `0` over every byte of
the freshly allocated frame (`ppn.get_bytes_array()`), embedded as a map over
the frame's byte list. -/
def FrameTracker.new (page : List Nat) : List Nat :=
  page.map (fun _ => 0)

/-! ## Page-table view and `mmap`/`munmap`
(`os/src/syscall/process.rs`, `os/src/task/mod.rs`) -/

/-- `PAGE_SIZE` from `os/src/config.rs`: 4 KiB pages (spec section 2). -/
def PAGE_SIZE : Nat := 4096

/-- A finite view of the current task's page table, as consulted by
`get_current_task_page_table` / `MemorySet::translate`: an association list
from virtual page number to the `V` bit of the page-table entry found there
(`none` when the walk finds no leaf entry at all). -/
structure PTView where
  entries : List (Nat × Bool)
deriving DecidableEq

/-- `MemorySet::translate(vpn)`, restricted to the `V` bit consulted by the
syscalls under verification: first matching entry of the view. -/
def PTView.translate (pt : PTView) (vpn : Nat) : Option Bool :=
  (pt.entries.find? (fun e => decide (e.1 = vpn))).map (fun e => e.2)

/-- Modelled from the spec: `VirtAddr::floor` of `os/src/mm/address.rs`
(file not in src), which rounds a virtual address down to its page number. -/
def vaFloor (va : Nat) : Nat := va / PAGE_SIZE

/-- Modelled from the spec: `VirtAddr::ceil` of `os/src/mm/address.rs`
(file not in src), which rounds a virtual address up to a page boundary
("page-rounded range"). -/
def vaCeil (va : Nat) : Nat := (va + PAGE_SIZE - 1) / PAGE_SIZE

/-- `VPNRange::new(s, e)` iterated low-to-high: the pages `s, s+1, ..., e-1`. -/
def vpnRange (s e : Nat) : List Nat :=
  (List.range (e - s)).map (fun k => s + k)

/-- `usize` bit-complement of `0x7`, as in `port & !0x7`. -/
def NOT7 : Nat := 2 ^ 64 - 8

/-- `sys_mmap(start, len, port)`.  The result is the returned `isize`
together with the framed map area created by `create_new_map_area`
(`(start_vpn, end_vpn, MapPermission bits)`), or `none` when no mapping is
created.  The end address `start + len` is a `usize` addition, which wraps
modulo `2^64` in a release build — embedded as `(start + len) % 2^64`
(`sys_munmap` clamps its length to avoid this; `sys_mmap` does not).
`MapPermission::from_bits_truncate((port << 1) as u8)` keeps only the
`R|W|X|U = 0x1E` bits of the byte-truncated shifted port, and `U = 0x10`
is or-ed in.  `maxva` stands for the `MAXVA` constant of `os/src/config.rs`
(file not in src). -/
def sysMmap (maxva : Nat) (pt : PTView) (start len port : Nat) :
    Int × Option (Nat × Nat × Nat) :=
  if start % PAGE_SIZE ≠ 0 ∨ port &&& NOT7 ≠ 0 ∨ port &&& 7 = 0 ∨ maxva ≤ start then
    (-1, none)
  else
    let startVpn := vaFloor start
    let endVpn := vaCeil ((start + len) % 2 ^ 64)
    if (vpnRange startVpn endVpn).any (fun v => (pt.translate v).getD false) then
      (-1, none)
    else
      (0, some (startVpn, endVpn, ((port <<< 1) % 256 &&& 0x1E) ||| 0x10))

/-- The loop of `unmap_consecutive_area`: unmap each page of the range in
order, returning `-1` as soon as a page has no PTE or an invalid PTE.  The
second component collects the pages actually unmapped before returning. -/
def unmapLoop (pt : PTView) : List Nat → List Nat → Int × List Nat
  | [], acc => (0, acc)
  | v :: vs, acc =>
    match pt.translate v with
    | some true => unmapLoop pt vs (acc ++ [v])
    | some false => (-1, acc)
    | none => (-1, acc)

/-- `sys_munmap(start, len)`.  Note the guard is `start & PAGE_SIZE != 0`
(testing only bit 12), exactly as written in the source, not
`start % PAGE_SIZE != 0`.  `usize` subtraction `MAXVA - len` is embedded as
truncated `Nat` subtraction.  Result: returned `isize` and the list of pages
unmapped. -/
def sysMunmap (maxva : Nat) (pt : PTView) (start len : Nat) : Int × List Nat :=
  if maxva ≤ start ∨ start &&& PAGE_SIZE ≠ 0 then (-1, [])
  else
    let mlen := if maxva - len < start then maxva - start else len
    unmapLoop pt (vpnRange (vaFloor start) (vaCeil (start + mlen))) []

/-! ## `sys_open` and `OpenFlags` (`os/src/syscall/fs.rs`, `os/src/fs/inode.rs`) -/

/-- The union of all defined `OpenFlags` bits:
`WRONLY (1) | RDWR (2) | CREATE (0x200) | TRUNC (0x400)`. -/
def OPEN_FLAGS_ALL : Nat := 0x603

/-- `OpenFlags::from_bits` (bitflags on `u32`): `None` exactly when some bit
outside the defined mask is set, i.e. `bits & !0x603 != 0` in `u32`. -/
def openFlagsFromBits (bits : Nat) : Option Nat :=
  if bits &&& (0xFFFFFFFF - OPEN_FLAGS_ALL) ≠ 0 then none else some bits

/-- `OpenFlags::read_write`: `(readable, writable)` derived from the flags. -/
def readWrite (flags : Nat) : Bool × Bool :=
  if flags = 0 then (true, false)
  else if flags &&& 1 ≠ 0 then (false, true)
  else (true, true)

/-- A regular file of the flat root directory, at the granularity `sys_open`
observes: its name and its size (cleared by `Inode::clear`). -/
structure FsFile where
  name : String
  size : Nat
deriving DecidableEq

/-- The `OSInode` handle produced by `open_file`. -/
structure OSInodeModel where
  readable : Bool
  writable : Bool
  name : String
deriving DecidableEq

/-- `open_file(name, flags)` from `os/src/fs/inode.rs`, with the root
directory abstracted to its list of files (`ROOT_INODE.find`/`create`/`clear`
of `easy-fs/src/vfs.rs` acting at the name/size level; `create` is assumed to
succeed).  `CREATE`: clear an existing file or create a fresh empty one;
otherwise the file must exist and `TRUNC` clears it. -/
def openFile (fs : List FsFile) (name : String) (flags : Nat) :
    Option OSInodeModel × List FsFile :=
  let rw := readWrite flags
  if flags &&& 0x200 ≠ 0 then
    if fs.any (fun f => f.name = name) then
      (some ⟨rw.1, rw.2, name⟩,
        fs.map (fun f => if f.name = name then { f with size := 0 } else f))
    else
      (some ⟨rw.1, rw.2, name⟩, fs ++ [⟨name, 0⟩])
  else
    if fs.any (fun f => f.name = name) then
      (some ⟨rw.1, rw.2, name⟩,
        if flags &&& 0x400 ≠ 0 then
          fs.map (fun f => if f.name = name then { f with size := 0 } else f)
        else fs)
    else (none, fs)

/-- Modelled from the spec: `TaskControlBlockInner::alloc_fd` (the threaded
PCB variant is not in src) — take the first vacant slot of the fd table,
else extend the table by one slot. -/
def allocFd (table : List (Option OSInodeModel)) (inode : OSInodeModel) :
    Nat × List (Option OSInodeModel) :=
  match table.findIdx? (fun s => s.isNone) with
  | some i => (i, table.set i (some inode))
  | none => (table.length, table ++ [some inode])

/-- `sys_open(path, flags)`.  `OpenFlags::from_bits(flags).unwrap()` panics
(`Except.error ()`) when `from_bits` is `None`; otherwise `open_file` runs and
on success a file descriptor is allocated.  The `ok` payload is the returned
`isize`, the root directory after the call, and the fd table after the call. -/
def sysOpen (fs : List FsFile) (table : List (Option OSInodeModel))
    (path : String) (flags : Nat) :
    Except Unit (Int × List FsFile × List (Option OSInodeModel)) :=
  match openFlagsFromBits flags with
  | none => Except.error ()
  | some f =>
    match openFile fs path f with
    | (some inode, fs2) =>
      let r := allocFd table inode
      Except.ok (Int.ofNat r.1, fs2, r.2)
    | (none, fs2) => Except.ok (-1, fs2, table)

/-! ## `sys_waitpid` (`os/src/syscall/process.rs`) -/

/-- A child process as `sys_waitpid` observes it: PID, whether its status is
`Zombie`, and its recorded exit code. -/
structure Child where
  pid : Nat
  zombie : Bool
  exitCode : Int
deriving DecidableEq

/-- Placeholder child used as the default of index lookups. -/
def childDefault : Child := ⟨0, false, 0⟩

/-- The per-child match test `pid == -1 || pid as usize == p.getpid()`;
the `isize → usize` cast is two's-complement, i.e. reduction mod `2^64`. -/
def pidMatches (pidArg : Int) (c : Child) : Bool :=
  decide (pidArg = -1) || decide ((pidArg % (2 ^ 64 : Int)).toNat = c.pid)

/-- The first guard of `sys_waitpid`: does any child match? -/
def hasMatch (pidArg : Int) (cs : List Child) : Bool :=
  cs.any (pidMatches pidArg)

/-- `children.iter().enumerate().find(is_zombie && matches)`: index and value
of the first zombie child matching `pidArg`. -/
def findZombieIdx (pidArg : Int) : List Child → Option (Nat × Child)
  | [] => none
  | c :: cs =>
    if c.zombie && pidMatches pidArg c then some (0, c)
    else (findZombieIdx pidArg cs).map (fun p => (p.1 + 1, p.2))

/-- `sys_waitpid(pid, exit_code_ptr)`: result triple of the returned `isize`,
the children list after the call, and the exit code written through
`translated_refmut` into the caller's address space (`none` when nothing is
written). -/
def sysWaitpid (pidArg : Int) (cs : List Child) :
    Int × List Child × Option Int :=
  if hasMatch pidArg cs = false then (-1, cs, none)
  else
    match findZombieIdx pidArg cs with
    | some p => (Int.ofNat p.2.pid, cs.eraseIdx p.1, some p.2.exitCode)
    | none => (-2, cs, none)

/-! ## Banker's deadlock detection (`os/src/syscall/sync.rs`) -/

/-- Pointwise row comparison `need[i].iter().zip(work.iter()).all(n <= w)`.
`zip` truncates to the shorter row, exactly as the Rust iterator does. -/
def rowLE (nd w : List Nat) : Bool :=
  (nd.zip w).all (fun p => decide (p.1 ≤ p.2))

/-- `for j in 0..num_resources { work[j] += allocation[i][j] }`, embedded as
a pointwise sum (rows have length `num_resources` in every reachable state). -/
def addRow (w al : List Nat) : List Nat :=
  List.zipWith (fun x y => x + y) w al

/-- One pass of the safety loop (`for i in 0..num_processes`): each still
unfinished thread whose need row is pointwise `≤ work` is finished, its
allocation row added to `work`; threads are visited in index order and
earlier finishes feed later checks.  Returns the updated finish flags, the
updated work vector, and whether the pass made progress. -/
def bankerSweep : List (List Nat × List Nat) → List Bool → List Nat →
    List Bool × List Nat × Bool
  | [], _, w => ([], w, false)
  | _ :: _, [], w => ([], w, false)
  | row :: rows, f :: fs, w =>
    if f = false ∧ rowLE row.1 w = true then
      let r := bankerSweep rows fs (addRow w row.2)
      (true :: r.1, r.2.1, true)
    else
      let r := bankerSweep rows fs w
      (f :: r.1, r.2.1, r.2.2)

/-- The outer `loop` of `deadlock_detected`: repeat sweeps until a pass makes
no progress (return `true`, deadlock) or all threads are finished (return
`false`).  The fuel `n + 1` (with `n` the number of rows) is enough: every
recursing iteration has set at least one new finish flag, so at most `n`
recursions happen and the fuel-0 branch is never taken when called with it. -/
def bankerLoop (rows : List (List Nat × List Nat)) :
    List Bool → List Nat → Nat → Bool
  | _, _, 0 => true
  | f, w, fuel + 1 =>
    let r := bankerSweep rows f w
    if r.2.2 = false then true
    else if r.1.all (fun b => b) then false
    else bankerLoop rows r.1 r.2.1 fuel

/-- The fields of the threaded `ProcessControlBlockInner` read by
`deadlock_detected` and `sys_mutex_lock`/`sys_semaphore_down` (the PCB
definition itself is not in src; fields and their types are taken from their
uses in `os/src/syscall/sync.rs`).  `maxm` is the `max` matrix. -/
structure ProcessInner where
  deadlockDetectionEnabled : Bool
  numProcesses : Nat
  numResources : Nat
  allocation : List (List Nat)
  maxm : List (List Nat)
deriving DecidableEq

/-- `deadlock_detected(process)` from `os/src/syscall/sync.rs`:
`need = max - allocation` (pointwise `usize` subtraction, embedded as
truncated `Nat` subtraction — no underflow occurs in the states considered),
`available[j] = TOTAL_AVAILABLE[j] - Σ_i allocation[i][j]` (again sequential
truncated subtraction), then the safety sweep loop.  `total` stands for the
`TOTAL_AVAILABLE` constant of `os/src/config.rs` (file not in src); row
indexing `allocation[i]` is embedded with `getD` (in-bounds in every state
the kernel reaches, since the matrices have `num_processes` rows). -/
def deadlockDetected (total : List Nat) (p : ProcessInner) : Bool :=
  let allocRows := (List.range p.numProcesses).map (fun i => p.allocation.getD i [])
  let maxRows := (List.range p.numProcesses).map (fun i => p.maxm.getD i [])
  let need := List.zipWith
    (fun al mx => List.zipWith (fun m a => m - a) mx al) allocRows maxRows
  let available := (List.range p.numResources).map
    (fun j => allocRows.foldl (fun acc row => acc - row.getD j 0) (total.getD j 0))
  bankerLoop (need.zip allocRows) (List.replicate p.numProcesses false) available
    (p.numProcesses + 1)

/-- `sys_mutex_lock(mutex_id)`, at the granularity of the detection matrices:
with detection enabled and `deadlock_detected` true it returns `-0xDEAD`
before touching anything; otherwise it proceeds to `mutex.lock()` (which
mutates the mutex object, not these matrices) and returns `0`. -/
def sysMutexLock (total : List Nat) (p : ProcessInner) : Int × ProcessInner :=
  if p.deadlockDetectionEnabled = true ∧ deadlockDetected total p = true then
    (-0xDEAD, p)
  else (0, p)

/-- `sys_semaphore_down(sem_id)`: identical detection structure to
`sys_mutex_lock`, then `sem.down()`. -/
def sysSemaphoreDown (total : List Nat) (p : ProcessInner) : Int × ProcessInner :=
  if p.deadlockDetectionEnabled = true ∧ deadlockDetected total p = true then
    (-0xDEAD, p)
  else (0, p)

/-- Modelled from the spec: the safety test the specification describes for
`lock`/`down` — hypothetically increment the maintained `need[class][t][r]`
by 1, set `Work = available` (the maintained vector), and run the same
finish-sweep loop; `true` means unsafe, i.e. the spec demands `-0xDEAD`. -/
def specSafetyRefusal (needM allocM : List (List Nat)) (available : List Nat)
    (t r : Nat) : Bool :=
  let needInc :=
    needM.set t ((needM.getD t []).set r ((needM.getD t []).getD r 0 + 1))
  bankerLoop (needInc.zip allocM) (List.replicate allocM.length false) available
    (allocM.length + 1)

/-! ## Stride scheduler (`os/src/task/manager.rs`) -/

/-- Task status (`os/src/task/task.rs`). -/
inductive TaskStatus
  | UnInit
  | Ready
  | Running
  | Zombie
deriving DecidableEq

/-- The scheduling-relevant fields of a queued task control block. -/
structure TCB where
  status : TaskStatus
  stride : Nat
  priority : Nat
deriving DecidableEq

/-- Placeholder TCB used as the default of index lookups. -/
def tcbDefault : TCB := ⟨TaskStatus.UnInit, 0, 0⟩

/-- The scan loop of `TaskManager::fetch`: starting from
`(min_index, min_stride) = (0, 0x7FFF_FFFF)`, every `Ready` task with stride
strictly below the current minimum updates the pair; `idx` is the index of
the first list element. -/
def strideScan : List TCB → Nat → Nat × Nat → Nat × Nat
  | [], _, acc => acc
  | t :: ts, idx, acc =>
    if t.status = TaskStatus.Ready ∧ t.stride < acc.2 then
      strideScan ts (idx + 1) (idx, t.stride)
    else
      strideScan ts (idx + 1) acc

/-- `TaskManager::fetch`: run the scan, bump the stride of the task at
`min_index` by `BIG_STRIDE / priority` (its own priority; `BIG_STRIDE` is a
constant of `os/src/config.rs`, not in src, passed as `bigStride`), and
remove and return that task.  `VecDeque::remove` returns `None` only on an
empty queue, since `min_index = 0` then. -/
def fetch (bigStride : Nat) (q : List TCB) : Option (TCB × List TCB) :=
  let p := strideScan q 0 (0, 0x7FFFFFFF)
  match q.get? p.1 with
  | some t => some ({ t with stride := t.stride + bigStride / t.priority },
      q.eraseIdx p.1)
  | none => none

/-! ## Bitmap allocator (`easy-fs/src/bitmap.rs`) -/

/-- `BLOCK_BITS = BLOCK_SZ * 8 = 512 * 8`. -/
def BLOCK_BITS : Nat := 4096

/-- `u64::MAX`. -/
def U64MAX : Nat := 2 ^ 64 - 1

/-- `u64::trailing_ones`: the number of consecutive set bits starting from
bit 0, i.e. the index of the lowest clear bit. -/
def trailingOnes (w : Nat) : Nat :=
  if h : w % 2 = 1 then trailingOnes (w / 2) + 1 else 0
termination_by w
decreasing_by
  exact Nat.div_lt_self (by omega) (by omega)

/-- `bitmap_block.iter().enumerate().find(bits64 != MAX)`: position and value
of the first 64-bit word of the block that is not all ones. -/
def firstNonFull : List Nat → Option (Nat × Nat)
  | [] => none
  | w :: ws =>
    if w = U64MAX then (firstNonFull ws).map (fun p => (p.1 + 1, p.2))
    else some (0, w)

/-- The closure body of `Bitmap::alloc` on one cached bitmap block (a block
is the list of its 64 `u64` words): set the lowest clear bit of the first
non-full word and return `bits64_pos * 64 + inner_pos` with the new block. -/
def bitmapBlockAlloc (blk : List Nat) : Option (Nat × List Nat) :=
  match firstNonFull blk with
  | some p =>
    some (p.1 * 64 + trailingOnes p.2, blk.set p.1 (p.2 ||| 2 ^ trailingOnes p.2))
  | none => none

/-- The block loop of `Bitmap::alloc` starting at relative block id `bid`. -/
def bitmapAllocAux : List (List Nat) → Nat → Option (Nat × List (List Nat))
  | [], _ => none
  | blk :: blks, bid =>
    match bitmapBlockAlloc blk with
    | some p => some (bid * BLOCK_BITS + p.1, p.2 :: blks)
    | none => (bitmapAllocAux blks (bid + 1)).map (fun r => (r.1, blk :: r.2))

/-- `Bitmap::alloc`: scan the bitmap's blocks in order. -/
def bitmapAlloc (blocks : List (List Nat)) : Option (Nat × List (List Nat)) :=
  bitmapAllocAux blocks 0

/-- `decomposition(bit) = (bit / BLOCK_BITS, bit % BLOCK_BITS / 64, bit % 64)`
followed by the `Bitmap::dealloc` closure: assert the bit is set (panic
`none` otherwise) and clear it with `-= 1 << inner_pos`. -/
def bitmapDealloc (blocks : List (List Nat)) (bit : Nat) :
    Option (List (List Nat)) :=
  let bp := bit / BLOCK_BITS
  let wp := bit % BLOCK_BITS / 64
  let ip := bit % 64
  let blk := blocks.getD bp []
  let w := blk.getD wp 0
  if w &&& 2 ^ ip = 0 then none
  else some (blocks.set bp (blk.set wp (w - 2 ^ ip)))

/-! ## Block cache manager (`easy-fs/src/block_cache.rs`) -/

/-- `BLOCK_CACHE_SIZE = 16`. -/
def BLOCK_CACHE_SIZE : Nat := 16

/-- A queue entry of the cache manager: the block id and the `Arc` strong
count of the cached block (the manager's own reference counts as 1;
anything above 1 is an outstanding external handle). -/
structure CacheEntry where
  blockId : Nat
  strongCount : Nat
deriving DecidableEq

/-- The eviction scan: index of the first entry, front to back, whose strong
count is exactly 1. -/
def findEvict : List CacheEntry → Option Nat
  | [] => none
  | e :: es =>
    if e.strongCount = 1 then some 0
    else (findEvict es).map (fun i => i + 1)

/-- `Arc::clone(&pair.1)` on the first entry with the requested block id:
its strong count rises by one (the returned shared handle). -/
def bumpFirst (bid : Nat) : List CacheEntry → List CacheEntry
  | [] => []
  | e :: es =>
    if e.blockId = bid then { e with strongCount := e.strongCount + 1 } :: es
    else e :: bumpFirst bid es

/-- `BlockCacheManager::get_block_cache`: hit returns a clone of the cached
entry (no device read); on a miss with a full queue the first evictable
entry is dropped (kernel panic `Except.error` when none is evictable), then
the block is read from the device and pushed at the back with strong count 2
(manager + returned handle).  The `Bool` records whether `BlockCache::new`
read the device. -/
def getBlockCache (q : List CacheEntry) (bid : Nat) :
    Except Unit (Bool × List CacheEntry) :=
  if q.any (fun e => decide (e.blockId = bid)) then
    Except.ok (false, bumpFirst bid q)
  else if q.length = BLOCK_CACHE_SIZE then
    match findEvict q with
    | some i => Except.ok (true, q.eraseIdx i ++ [⟨bid, 2⟩])
    | none => Except.error ()
  else Except.ok (true, q ++ [⟨bid, 2⟩])

/-! ## Pipe ring buffer (`os/src/fs/pipe.rs`) -/

/-- `RING_BUFFER_SIZE = 32`. -/
def RING_BUFFER_SIZE : Nat := 32

/-- `RingBufferStatus`. -/
inductive RingBufferStatus
  | Full
  | Empty
  | Normal
deriving DecidableEq

/-- `PipeRingBuffer` (the `write_end` weak reference is not needed by the
byte-level operations under verification). -/
structure PipeRingBuffer where
  arr : List Nat
  head : Nat
  tail : Nat
  status : RingBufferStatus
deriving DecidableEq

/-- `PipeRingBuffer::new`. -/
def pipeNew : PipeRingBuffer :=
  ⟨List.replicate RING_BUFFER_SIZE 0, 0, 0, RingBufferStatus.Empty⟩

/-- `PipeRingBuffer::write_byte`. -/
def writeByte (s : PipeRingBuffer) (b : Nat) : PipeRingBuffer :=
  let tail2 := (s.tail + 1) % RING_BUFFER_SIZE
  { arr := s.arr.set s.tail b
    head := s.head
    tail := tail2
    status := if tail2 = s.head then RingBufferStatus.Full
              else RingBufferStatus.Normal }

/-- `PipeRingBuffer::read_byte`: the byte read and the successor state. -/
def readByte (s : PipeRingBuffer) : Nat × PipeRingBuffer :=
  let c := s.arr.getD s.head 0
  let head2 := (s.head + 1) % RING_BUFFER_SIZE
  (c, { arr := s.arr
        head := head2
        tail := s.tail
        status := if head2 = s.tail then RingBufferStatus.Empty
                  else RingBufferStatus.Normal })

/-- `PipeRingBuffer::available_read`. -/
def availableRead (s : PipeRingBuffer) : Nat :=
  if s.status = RingBufferStatus.Empty then 0
  else if s.head < s.tail then s.tail - s.head
  else s.tail + RING_BUFFER_SIZE - s.head

/-- `PipeRingBuffer::available_write`. -/
def availableWrite (s : PipeRingBuffer) : Nat :=
  if s.status = RingBufferStatus.Full then 0
  else RING_BUFFER_SIZE - availableRead s

/-- Placeholder cache entry used as the default of index lookups. -/
def cacheDefault : CacheEntry := ⟨0, 0⟩

/-- The guarded traces of claim C10: states reachable from
`PipeRingBuffer::new` by `write_byte` calls made only when
`available_write() > 0` and `read_byte` calls made only when
`available_read() > 0`.  `w` is the list of all bytes written so far in
order, `r` the number of bytes read so far. -/
inductive PipeOps : PipeRingBuffer → List Nat → Nat → Prop
  | nil : PipeOps pipeNew [] 0
  | write {s : PipeRingBuffer} {w : List Nat} {r : Nat} (b : Nat) :
      PipeOps s w r → 0 < availableWrite s → PipeOps (writeByte s b) (w ++ [b]) r
  | read {s : PipeRingBuffer} {w : List Nat} {r : Nat} :
      PipeOps s w r → 0 < availableRead s → PipeOps (readByte s).2 w (r + 1)

/-- The inductive invariant tying a reachable ring-buffer state to its trace:
byte `k` of the written stream lives at slot `k % 32` while it is in the
live window `[r, w.length)`, the indices are the counters mod 32, and the
status marker is determined by the window size. -/
def pipeInv (s : PipeRingBuffer) (w : List Nat) (r : Nat) : Prop :=
  r ≤ w.length ∧ w.length - r ≤ 32 ∧ s.arr.length = 32 ∧
  s.head = r % 32 ∧ s.tail = w.length % 32 ∧
  s.status = (if w.length - r = 0 then RingBufferStatus.Empty
              else if w.length - r = 32 then RingBufferStatus.Full
              else RingBufferStatus.Normal) ∧
  (∀ k, r ≤ k → k < w.length → s.arr.getD (k % 32) 0 = w.getD k 0)

/-! ## Theorems -/

/-- C7: `StackFrameAllocator::alloc` pops the most recently recycled page
when the recycle stack is non-empty (its head, since `dealloc` pushes there),
otherwise returns `current` and bumps it, and fails exactly when
`current = end` with an empty recycle stack; `FrameTracker::new` zeroes every
byte of the frame before the handle is returned; `dealloc(ppn)` panics iff
`ppn ≥ current` or `ppn` is already recycled, and otherwise pushes `ppn`. -/
theorem stackFrameAllocator_spec (a : StackFrameAllocator) (ppn : Nat)
    (page : List Nat) :
    (∀ p rest, a.recycled = p :: rest →
      a.alloc = some (p, { a with recycled := rest })) ∧
    (a.recycled = [] → a.current ≠ a.endPpn →
      a.alloc = some (a.current, { a with current := a.current + 1 })) ∧
    (a.alloc = none ↔ (a.current = a.endPpn ∧ a.recycled = [])) ∧
    (∀ b ∈ FrameTracker.new page, b = 0) ∧
    (a.dealloc ppn = none ↔ (a.current ≤ ppn ∨ ppn ∈ a.recycled)) ∧
    (¬(a.current ≤ ppn ∨ ppn ∈ a.recycled) →
      a.dealloc ppn = some { a with recycled := ppn :: a.recycled }) := by
  obtain ⟨cur, endp, rec⟩ := a
  refine ⟨?_, ?_, ?_, ?_, ?_, ?_⟩
  · intro p rest hrec
    have h : rec = p :: rest := hrec
    subst h
    rfl
  · intro hrec hne
    have h : rec = [] := hrec
    subst h
    have hne2 : cur ≠ endp := hne
    simp [StackFrameAllocator.alloc, hne2]
  · cases rec with
    | nil =>
      by_cases hc : cur = endp <;> simp [StackFrameAllocator.alloc, hc]
    | cons p rest =>
      simp [StackFrameAllocator.alloc]
  · intro b hb
    simp only [FrameTracker.new, List.mem_map] at hb
    obtain ⟨x, -, hx⟩ := hb
    exact hx.symm
  · simp only [StackFrameAllocator.dealloc]
    by_cases h : cur ≤ ppn ∨ ppn ∈ rec
    · simp [h]
    · simp [h]
  · intro h
    simp only [StackFrameAllocator.dealloc, if_neg h]

/-- C7 witness: on the allocator with `current = 5`, `end = 10`,
`recycled = [3]`, `alloc` pops `3` and `dealloc 4` pushes `4`. -/
theorem stackFrameAllocator_spec_witness :
    StackFrameAllocator.alloc ⟨5, 10, [3]⟩ = some (3, ⟨5, 10, []⟩) ∧
    StackFrameAllocator.dealloc ⟨5, 10, [3]⟩ 4 = some ⟨5, 10, [4, 3]⟩ :=
  ⟨(stackFrameAllocator_spec ⟨5, 10, [3]⟩ 0 []).1 3 [] rfl,
   (stackFrameAllocator_spec ⟨5, 10, [3]⟩ 4 []).2.2.2.2.2 (by decide)⟩

/-- C5: the source guard is `start & PAGE_SIZE != 0`, which tests only
bit 12 instead of page alignment.  `start = 0x800` is not page-aligned, yet
with page 0 validly mapped `sys_munmap(0x800, 0x800)` passes the guard,
unmaps virtual page 0 and returns 0, instead of returning `-1` with no page
unmapped as the specification requires. -/
theorem sysMunmap_misaligned_unmaps (maxva : Nat) (h : 0x1000 ≤ maxva) :
    sysMunmap maxva ⟨[(0, true)]⟩ 0x800 0x800 = (0, [0]) := by
  have h1 : ¬(maxva ≤ 0x800 ∨ 0x800 &&& PAGE_SIZE ≠ 0) := by
    push_neg
    exact ⟨by omega, by decide⟩
  have h2 : ¬(maxva - 0x800 < 0x800) := by omega
  simp only [sysMunmap, if_neg h1, if_neg h2]
  decide

/-- C5 witness: the failing input evaluated at a concrete `MAXVA`. -/
theorem sysMunmap_misaligned_unmaps_witness :
    sysMunmap (2 ^ 38) ⟨[(0, true)]⟩ 0x800 0x800 = (0, [0]) :=
  sysMunmap_misaligned_unmaps (2 ^ 38) (by norm_num)

/-- C6 counterexample: `sys_open` with the invalid flags word `4` panics on
`OpenFlags::from_bits(flags).unwrap()` instead of returning `-1`. -/
theorem sysOpen_invalid_flags_cx :
    sysOpen [] [] "x" 4 = Except.error () ∧
    sysOpen [] [] "x" 4 ≠ Except.ok (-1, [], []) := by
  constructor
  · rfl
  · intro h
    exact Except.noConfusion h

/-- C6 amended: for every flags word with a bit outside
`WRONLY | RDWR | CREATE | TRUNC`, `sys_open` panics on the
`from_bits(...).unwrap()` (so no file descriptor is allocated and no file is
created or truncated — the call never reaches `open_file`), rather than
returning `-1`. -/
theorem sysOpen_invalid_flags_panics (fs : List FsFile)
    (table : List (Option OSInodeModel)) (path : String) (flags : Nat)
    (h : flags &&& (0xFFFFFFFF - OPEN_FLAGS_ALL) ≠ 0) :
    sysOpen fs table path flags = Except.error () := by
  simp only [sysOpen, openFlagsFromBits, if_pos h]

/-- C6 witness: flags word `4` has a bit outside the defined mask. -/
theorem sysOpen_invalid_flags_panics_witness :
    sysOpen [⟨"a", 9⟩] [none] "a" 4 = Except.error () :=
  sysOpen_invalid_flags_panics [⟨"a", 9⟩] [none] "a" 4 (by decide)

/-- C1 counterexample: a thread that already holds the only mutex
(`allocation = [[1]]`, `max = [[1]]`, one unit in total) re-requests it.
The safety test described by the spec (hypothetically increment
`need[t][r]`, `Work = available = [0]`) is unsafe, so the spec demands
`-0xDEAD`; but `deadlock_detected` ignores the requested resource, finds the
current state safe (`need = max - allocation = [[0]]`) and `sys_mutex_lock`
proceeds, returning 0. -/
theorem deadlock_detection_cx :
    specSafetyRefusal [[0]] [[1]] [0] 0 0 = true ∧
    sysMutexLock [1] ⟨true, 1, 1, [[1]], [[1]]⟩ =
      (0, ⟨true, 1, 1, [[1]], [[1]]⟩) := by
  constructor
  · rfl
  · rfl

/-- C1 amended: with deadlock detection enabled, `sys_mutex_lock` and
`sys_semaphore_down` run `deadlock_detected` — the safety sweep over
`need = max - allocation` and `available = TOTAL_AVAILABLE - column sums of
allocation`, with no hypothetical increment for the requested resource — and
when it reports deadlock they return `-0xDEAD` with the accounting matrices
untouched; otherwise they proceed to acquire and return 0. -/
theorem sysMutexLock_refusal (total : List Nat) (p : ProcessInner)
    (he : p.deadlockDetectionEnabled = true) :
    (deadlockDetected total p = true →
      sysMutexLock total p = (-0xDEAD, p) ∧
      sysSemaphoreDown total p = (-0xDEAD, p)) ∧
    (deadlockDetected total p = false →
      sysMutexLock total p = (0, p) ∧
      sysSemaphoreDown total p = (0, p)) := by
  constructor
  · intro hd
    constructor <;> simp [sysMutexLock, sysSemaphoreDown, he, hd]
  · intro hd
    constructor <;> simp [sysMutexLock, sysSemaphoreDown, he, hd]

/-- C1 witness: a state `deadlock_detected` reports as deadlocked
(`need = [[2]]`, `available = [1]`) is refused with `-0xDEAD` and left
unchanged. -/
theorem sysMutexLock_refusal_witness :
    sysMutexLock [1] ⟨true, 1, 1, [[0]], [[2]]⟩ =
      (-0xDEAD, ⟨true, 1, 1, [[0]], [[2]]⟩) :=
  ((sysMutexLock_refusal [1] ⟨true, 1, 1, [[0]], [[2]]⟩ rfl).1 (by decide)).1

/-- The zombie scan finds nothing iff no child is a matching zombie. -/
theorem findZombieIdx_eq_none (pidArg : Int) (cs : List Child) :
    findZombieIdx pidArg cs = none ↔
      ∀ c ∈ cs, ¬(c.zombie = true ∧ pidMatches pidArg c = true) := by
  induction cs with
  | nil => simp [findZombieIdx]
  | cons c cs ih =>
    cases hcz : (c.zombie && pidMatches pidArg c) with
    | true =>
      simp only [Bool.and_eq_true] at hcz
      simp [findZombieIdx, hcz]
    | false =>
      rw [findZombieIdx]
      simp only [hcz, if_false, Bool.false_eq_true]
      constructor
      · intro h
        rw [Option.map_eq_none'] at h
        intro d hd
        rcases List.mem_cons.mp hd with h1 | h1
        · subst h1
          intro hcon
          rw [hcon.1, hcon.2] at hcz
          simp at hcz
        · exact ih.mp h d h1
      · intro h
        rw [Option.map_eq_none']
        exact ih.mpr (fun d hd => h d (List.mem_cons_of_mem c hd))

/-- The zombie scan returns the first matching zombie index. -/
theorem findZombieIdx_first (pidArg : Int) (cs : List Child) :
    ∀ i, i < cs.length →
      (cs.getD i childDefault).zombie = true →
      pidMatches pidArg (cs.getD i childDefault) = true →
      (∀ j, j < i → ¬((cs.getD j childDefault).zombie = true ∧
        pidMatches pidArg (cs.getD j childDefault) = true)) →
      findZombieIdx pidArg cs = some (i, cs.getD i childDefault) := by
  induction cs with
  | nil =>
    intro i hi
    simp at hi
  | cons c cs ih =>
    intro i hi hz hm hfirst
    cases i with
    | zero =>
      rw [List.getD_cons_zero] at hz hm
      rw [findZombieIdx]
      simp [hz, hm]
    | succ i =>
      have hc : ¬(c.zombie = true ∧ pidMatches pidArg c = true) := by
        have := hfirst 0 (Nat.succ_pos i)
        simpa using this
      have hcb : (c.zombie && pidMatches pidArg c) = false := by
        cases h1 : c.zombie <;> cases h2 : pidMatches pidArg c <;> simp_all
      rw [findZombieIdx]
      simp only [hcb, if_false, Bool.false_eq_true]
      rw [List.getD_cons_succ] at hz hm
      have hrec := ih i (by simpa using hi) hz hm (by
        intro j hj
        have := hfirst (j + 1) (by omega)
        simpa [List.getD_cons_succ] using this)
      rw [hrec]
      simp [List.getD_cons_succ]

/-- C3: `sys_waitpid(pid, out)` returns `-1` untouched when no child
matches, `-2` untouched when some child matches but no matching child is a
zombie, and otherwise removes the first matching zombie (children-list
order) from the children list, writes its exit code to the caller and
returns its PID. -/
theorem sysWaitpid_spec (pidArg : Int) (cs : List Child) :
    ((∀ c ∈ cs, pidMatches pidArg c = false) →
      sysWaitpid pidArg cs = (-1, cs, none)) ∧
    ((∃ c ∈ cs, pidMatches pidArg c = true) →
      (∀ c ∈ cs, ¬(c.zombie = true ∧ pidMatches pidArg c = true)) →
      sysWaitpid pidArg cs = (-2, cs, none)) ∧
    (∀ i, i < cs.length →
      (cs.getD i childDefault).zombie = true →
      pidMatches pidArg (cs.getD i childDefault) = true →
      (∀ j, j < i → ¬((cs.getD j childDefault).zombie = true ∧
        pidMatches pidArg (cs.getD j childDefault) = true)) →
      sysWaitpid pidArg cs =
        (Int.ofNat (cs.getD i childDefault).pid, cs.eraseIdx i,
          some (cs.getD i childDefault).exitCode)) := by
  refine ⟨?_, ?_, ?_⟩
  · intro h
    have hm : hasMatch pidArg cs = false := by
      rw [hasMatch, List.any_eq_false]
      intro c hc
      simp [h c hc]
    simp [sysWaitpid, hm]
  · rintro ⟨c, hc, hmc⟩ hall
    have hm : hasMatch pidArg cs = true := by
      rw [hasMatch, List.any_eq_true]
      exact ⟨c, hc, hmc⟩
    have hn := (findZombieIdx_eq_none pidArg cs).mpr hall
    simp [sysWaitpid, hm, hn]
  · intro i hi hz hmm hfirst
    have hmem : cs.getD i childDefault ∈ cs := by
      rw [List.getD_eq_get cs childDefault hi]
      exact List.get_mem cs i hi
    have hm : hasMatch pidArg cs = true := by
      rw [hasMatch, List.any_eq_true]
      exact ⟨cs.getD i childDefault, hmem, hmm⟩
    have hf := findZombieIdx_first pidArg cs i hi hz hmm hfirst
    simp [sysWaitpid, hm, hf]

/-- C3 witness: waiting for any child with children `[pid 3 alive,
pid 5 zombie exit 42]` reaps pid 5. -/
theorem sysWaitpid_spec_witness :
    sysWaitpid (-1) [⟨3, false, 0⟩, ⟨5, true, 42⟩] =
      (5, [⟨3, false, 0⟩], some 42) := by
  exact (sysWaitpid_spec (-1) [⟨3, false, 0⟩, ⟨5, true, 42⟩]).2.2 1 (by decide)
    (by decide) (by decide)
    (by
      intro j hj
      interval_cases j
      decide)

/-- Membership in an iterated `VPNRange`. -/
theorem mem_vpnRange (s e v : Nat) : v ∈ vpnRange s e ↔ s ≤ v ∧ v < e := by
  simp only [vpnRange, List.mem_map, List.mem_range]
  constructor
  · rintro ⟨k, hk, rfl⟩
    omega
  · rintro ⟨h1, h2⟩
    exact ⟨v - s, by omega, by omega⟩

/-- The validity test of the `sys_mmap` loop body. -/
theorem translate_getD_true (pt : PTView) (v : Nat) :
    (pt.translate v).getD false = true ↔ pt.translate v = some true := by
  cases h : pt.translate v with
  | none => simp
  | some b => cases b <;> simp

/-- The overlap scan of `sys_mmap` fires iff some page of the rounded range
has a valid PTE. -/
theorem vpnRange_any_valid (pt : PTView) (s e : Nat) :
    ((vpnRange s e).any (fun v => (pt.translate v).getD false) = true) ↔
      ∃ v, s ≤ v ∧ v < e ∧ pt.translate v = some true := by
  rw [List.any_eq_true]
  constructor
  · rintro ⟨v, hv, hp⟩
    obtain ⟨h1, h2⟩ := (mem_vpnRange s e v).mp hv
    exact ⟨v, h1, h2, (translate_getD_true pt v).mp hp⟩
  · rintro ⟨v, h1, h2, hp⟩
    exact ⟨v, (mem_vpnRange s e v).mpr ⟨h1, h2⟩,
      (translate_getD_true pt v).mpr hp⟩

/-- C4 counterexample: at `start = 0x1000`, `len = 2^64 - 0x800`, `port = 3`
the `usize` sum `start + len` wraps to the end address `0x800`, whose
page-rounded range `[1, 1)` is empty; the kernel therefore skips the overlap
check, creates the empty framed area `(1, 1)` and returns 0 — even though
page 1, which lies inside the claim's range `[start, start + len)` (its very
first page), is validly mapped, so the claim demands `-1` with no mapping
created. -/
theorem sysMmap_wrap_cx :
    sysMmap (2 ^ 38) ⟨[(1, true)]⟩ 0x1000 (2 ^ 64 - 0x800) 3 =
      ((0 : Int), some (1, 1, 22)) ∧
    PTView.translate ⟨[(1, true)]⟩ 1 = some true ∧
    vaFloor 0x1000 ≤ 1 ∧ 1 < vaCeil (0x1000 + (2 ^ 64 - 0x800)) := by
  refine ⟨?_, rfl, by decide, by decide⟩
  rfl

/-- C4 amended: `sys_mmap(start, len, port)` returns `-1` and creates
nothing when `start` is misaligned, `port` has bits above the low 3,
`port`'s low 3 bits are all clear, `start ≥ MAXVA`, or some page of the
page-rounded range `[floor(start), ceil((start + len) mod 2^64))` — the end
address computed with wrapping `usize` addition — is already validly
mapped; otherwise it creates the framed map area over that rounded range
with the `port` RWX permissions shifted into place plus `U`, and returns 0.
When `start + len` overflows, the wrapped range is empty or inverted, no
page is checked, and an empty-range area is created with return 0. -/
theorem sysMmap_spec (maxva : Nat) (pt : PTView) (start len port : Nat) :
    ((start % PAGE_SIZE ≠ 0 ∨ port &&& NOT7 ≠ 0 ∨ port &&& 7 = 0 ∨ maxva ≤ start ∨
      (∃ v, vaFloor start ≤ v ∧ v < vaCeil ((start + len) % 2 ^ 64) ∧
        pt.translate v = some true)) →
      sysMmap maxva pt start len port = (-1, none)) ∧
    (start % PAGE_SIZE = 0 → port &&& NOT7 = 0 → port &&& 7 ≠ 0 → start < maxva →
      (∀ v, vaFloor start ≤ v → v < vaCeil ((start + len) % 2 ^ 64) →
        pt.translate v ≠ some true) →
      sysMmap maxva pt start len port =
        ((0 : Int), some (vaFloor start, vaCeil ((start + len) % 2 ^ 64),
          ((port <<< 1) % 256 &&& 0x1E) ||| 0x10))) := by
  constructor
  · intro h
    by_cases hg : start % PAGE_SIZE ≠ 0 ∨ port &&& NOT7 ≠ 0 ∨ port &&& 7 = 0 ∨
      maxva ≤ start
    · simp only [sysMmap, if_pos hg]
    · have hex : ∃ v, vaFloor start ≤ v ∧ v < vaCeil ((start + len) % 2 ^ 64) ∧
          pt.translate v = some true := by
        rcases h with h | h | h | h | h
        · exact absurd (Or.inl h) hg
        · exact absurd (Or.inr (Or.inl h)) hg
        · exact absurd (Or.inr (Or.inr (Or.inl h))) hg
        · exact absurd (Or.inr (Or.inr (Or.inr h))) hg
        · exact h
      have hany := (vpnRange_any_valid pt (vaFloor start)
        (vaCeil ((start + len) % 2 ^ 64))).mpr hex
      simp only [sysMmap, if_neg hg, hany, if_true]
  · intro h1 h2 h3 h4 h5
    have hg : ¬(start % PAGE_SIZE ≠ 0 ∨ port &&& NOT7 ≠ 0 ∨ port &&& 7 = 0 ∨
        maxva ≤ start) := by
      push_neg
      exact ⟨h1, h2, h3, by omega⟩
    have hany : ((vpnRange (vaFloor start) (vaCeil ((start + len) % 2 ^ 64))).any
        (fun v => (pt.translate v).getD false)) = false := by
      rw [← Bool.not_eq_true, vpnRange_any_valid]
      rintro ⟨v, hv1, hv2, hv3⟩
      exact h5 v hv1 hv2 hv3
    simp only [sysMmap, if_neg hg, hany, Bool.false_eq_true, if_false]

/-- C4 witness: an aligned request over pages `[0, 2)` with `port = 3`
(read/write) on a space whose only PTE is the invalid one at page 1
succeeds with permissions `R|W|U = 22`. -/
theorem sysMmap_spec_witness :
    sysMmap (2 ^ 38) ⟨[(1, false)]⟩ 0 8192 3 = ((0 : Int), some (0, 2, 22)) := by
  have h := (sysMmap_spec (2 ^ 38) ⟨[(1, false)]⟩ 0 8192 3).2 (by decide)
    (by decide) (by decide) (by norm_num)
    (by
      intro v hv1 hv2
      have hv2b : v < 2 := by
        simpa [vaCeil, PAGE_SIZE] using hv2
      interval_cases v <;> decide)
  exact h

/-- The eviction scan finds nothing iff every cached entry is pinned. -/
theorem findEvict_eq_none (q : List CacheEntry) :
    findEvict q = none ↔ ∀ e ∈ q, e.strongCount ≠ 1 := by
  induction q with
  | nil => simp [findEvict]
  | cons e es ih =>
    by_cases hc : e.strongCount = 1
    · simp [findEvict, hc]
    · rw [findEvict]
      simp only [hc, if_false]
      rw [Option.map_eq_none']
      constructor
      · intro h d hd
        rcases List.mem_cons.mp hd with h1 | h1
        · subst h1
          exact hc
        · exact ih.mp h d h1
      · intro h
        exact ih.mpr (fun d hd => h d (List.mem_cons_of_mem e hd))

/-- The eviction scan returns the first entry with strong count 1. -/
theorem findEvict_first (q : List CacheEntry) :
    ∀ i, i < q.length → (q.getD i cacheDefault).strongCount = 1 →
      (∀ j, j < i → (q.getD j cacheDefault).strongCount ≠ 1) →
      findEvict q = some i := by
  induction q with
  | nil =>
    intro i hi
    simp at hi
  | cons e es ih =>
    intro i hi h1 hfirst
    cases i with
    | zero =>
      rw [List.getD_cons_zero] at h1
      simp [findEvict, h1]
    | succ i =>
      have hc : e.strongCount ≠ 1 := by
        have := hfirst 0 (Nat.succ_pos i)
        simpa using this
      rw [findEvict]
      simp only [hc, if_false]
      rw [List.getD_cons_succ] at h1
      have hrec := ih i (by simpa using hi) h1 (by
        intro j hj
        have := hfirst (j + 1) (by omega)
        simpa [List.getD_cons_succ] using this)
      rw [hrec]
      rfl

/-- `Arc::clone` of a cached entry does not change which blocks are cached. -/
theorem bumpFirst_blockIds (bid : Nat) (q : List CacheEntry) :
    (bumpFirst bid q).map (fun e => e.blockId) = q.map (fun e => e.blockId) := by
  induction q with
  | nil => rfl
  | cons e es ih =>
    rw [bumpFirst]
    by_cases hc : e.blockId = bid
    · simp [hc]
    · simp [hc, ih]

/-- C9: `get_block_cache(block_id)` returns a clone of the cached entry on a
hit (no eviction — the set of cached blocks is unchanged — and no device
read); on a miss with 16 entries it evicts the first entry, front to back,
whose strong count is exactly the manager's own 1, panicking when every
entry is pinned; the requested block is then read from the device and
appended at the back. -/
theorem getBlockCache_spec (q : List CacheEntry) (bid : Nat) :
    ((∃ e ∈ q, e.blockId = bid) →
      getBlockCache q bid = Except.ok (false, bumpFirst bid q) ∧
      (bumpFirst bid q).map (fun e => e.blockId) = q.map (fun e => e.blockId)) ∧
    ((∀ e ∈ q, e.blockId ≠ bid) → q.length = BLOCK_CACHE_SIZE →
      (∀ i, i < q.length → (q.getD i cacheDefault).strongCount = 1 →
        (∀ j, j < i → (q.getD j cacheDefault).strongCount ≠ 1) →
        getBlockCache q bid = Except.ok (true, q.eraseIdx i ++ [⟨bid, 2⟩])) ∧
      ((∀ e ∈ q, e.strongCount ≠ 1) → getBlockCache q bid = Except.error ())) ∧
    ((∀ e ∈ q, e.blockId ≠ bid) → q.length ≠ BLOCK_CACHE_SIZE →
      getBlockCache q bid = Except.ok (true, q ++ [⟨bid, 2⟩])) := by
  refine ⟨?_, ?_, ?_⟩
  · rintro ⟨e, he, hbid⟩
    have hhit : (q.any (fun e => decide (e.blockId = bid))) = true := by
      rw [List.any_eq_true]
      exact ⟨e, he, by simpa using hbid⟩
    refine ⟨?_, bumpFirst_blockIds bid q⟩
    simp only [getBlockCache, hhit, if_true]
  · intro hmiss hlen
    have hhit : (q.any (fun e => decide (e.blockId = bid))) = false := by
      rw [List.any_eq_false]
      intro e he
      simpa using hmiss e he
    constructor
    · intro i hi h1 hfirst
      have hf := findEvict_first q i hi h1 hfirst
      simp only [getBlockCache, hhit, Bool.false_eq_true, if_false, hlen,
        if_true, hf]
    · intro hall
      have hf := (findEvict_eq_none q).mpr hall
      simp only [getBlockCache, hhit, Bool.false_eq_true, if_false, hlen,
        if_true, hf]
  · intro hmiss hlen
    have hhit : (q.any (fun e => decide (e.blockId = bid))) = false := by
      rw [List.any_eq_false]
      intro e he
      simpa using hmiss e he
    simp only [getBlockCache, hhit, Bool.false_eq_true, if_false, hlen,
      if_neg hlen]

/-- C9 witness: requesting cached block 2 bumps its handle count and reads
nothing from the device. -/
theorem getBlockCache_spec_witness :
    getBlockCache [⟨1, 1⟩, ⟨2, 5⟩] 2 = Except.ok (false, [⟨1, 1⟩, ⟨2, 6⟩]) := by
  exact ((getBlockCache_spec [⟨1, 1⟩, ⟨2, 5⟩] 2).1 ⟨⟨2, 5⟩, by decide, rfl⟩).1

/-- The running minimum of the stride scan never increases. -/
theorem strideScan_snd_le (ts : List TCB) :
    ∀ (idx : Nat) (acc : Nat × Nat), (strideScan ts idx acc).2 ≤ acc.2 := by
  induction ts with
  | nil =>
    intro idx acc
    simp [strideScan]
  | cons t ts ih =>
    intro idx acc
    rw [strideScan]
    split
    · next h =>
      exact le_trans (ih (idx + 1) (idx, t.stride)) (le_of_lt h.2)
    · exact ih (idx + 1) acc

/-- After the scan, the running minimum is below the stride of every `Ready`
task of the scanned suffix. -/
theorem strideScan_min (ts : List TCB) :
    ∀ (idx : Nat) (acc : Nat × Nat) (k : Nat), k < ts.length →
      (ts.getD k tcbDefault).status = TaskStatus.Ready →
      (strideScan ts idx acc).2 ≤ (ts.getD k tcbDefault).stride := by
  induction ts with
  | nil =>
    intro idx acc k hk
    simp at hk
  | cons t ts ih =>
    intro idx acc k hk hr
    cases k with
    | zero =>
      rw [List.getD_cons_zero] at hr ⊢
      rw [strideScan]
      split
      · next h =>
        exact strideScan_snd_le ts (idx + 1) (idx, t.stride)
      · next h =>
        have hge : acc.2 ≤ t.stride := by
          by_contra hlt
          exact h ⟨hr, by omega⟩
        exact le_trans (strideScan_snd_le ts (idx + 1) acc) hge
    | succ k =>
      rw [List.getD_cons_succ] at hr ⊢
      rw [strideScan]
      split
      · exact ih (idx + 1) (idx, t.stride) k (by simpa using hk) hr
      · exact ih (idx + 1) acc k (by simpa using hk) hr

/-- If the scan does not improve the running minimum, it keeps the running
index too (every accepted update strictly decreases the minimum). -/
theorem strideScan_stable (ts : List TCB) :
    ∀ (idx : Nat) (acc : Nat × Nat), (strideScan ts idx acc).2 = acc.2 →
      (strideScan ts idx acc).1 = acc.1 := by
  induction ts with
  | nil =>
    intro idx acc _
    simp [strideScan]
  | cons t ts ih =>
    intro idx acc heq
    by_cases hcond : t.status = TaskStatus.Ready ∧ t.stride < acc.2
    · rw [strideScan, if_pos hcond] at heq
      have hle := strideScan_snd_le ts (idx + 1) (idx, t.stride)
      simp only at hle
      omega
    · rw [strideScan, if_neg hcond] at heq ⊢
      exact ih (idx + 1) acc heq

/-- If the scan improved the running minimum, it found a `Ready` task of the
scanned suffix whose stride is the final minimum, at the final index. -/
theorem strideScan_found (ts : List TCB) :
    ∀ (idx : Nat) (acc : Nat × Nat), (strideScan ts idx acc).2 < acc.2 →
      ∃ k, k < ts.length ∧ (strideScan ts idx acc).1 = idx + k ∧
        (ts.getD k tcbDefault).status = TaskStatus.Ready ∧
        (ts.getD k tcbDefault).stride = (strideScan ts idx acc).2 := by
  induction ts with
  | nil =>
    intro idx acc hlt
    rw [strideScan] at hlt
    omega
  | cons t ts ih =>
    intro idx acc hlt
    rw [strideScan] at hlt ⊢
    split at hlt
    · next h =>
      split
      · next h2 =>
        by_cases himp : (strideScan ts (idx + 1) (idx, t.stride)).2 < t.stride
        · obtain ⟨k, hk, h1, h2r, h3⟩ := ih (idx + 1) (idx, t.stride) himp
          refine ⟨k + 1, by simpa using hk, by omega, ?_, ?_⟩
          · rw [List.getD_cons_succ]
            exact h2r
          · rw [List.getD_cons_succ]
            exact h3
        · have hle := strideScan_snd_le ts (idx + 1) (idx, t.stride)
          simp only at hle
          have heq : (strideScan ts (idx + 1) (idx, t.stride)).2 = t.stride := by
            omega
          have hidx := strideScan_stable ts (idx + 1) (idx, t.stride) heq
          refine ⟨0, by simp, by simpa using hidx, ?_, ?_⟩
          · rw [List.getD_cons_zero]
            exact h2.1
          · rw [List.getD_cons_zero]
            exact heq.symm
      · next h2 => exact absurd h h2
    · next h =>
      split
      · next h2 => exact absurd h2 h
      · next h2 =>
        obtain ⟨k, hk, h1, h2r, h3⟩ := ih (idx + 1) acc hlt
        refine ⟨k + 1, by simpa using hk, by omega, ?_, ?_⟩
        · rw [List.getD_cons_succ]
          exact h2r
        · rw [List.getD_cons_succ]
          exact h3

/-- Ties break towards the front: every `Ready` task strictly before the
final index has stride strictly above the final minimum. -/
theorem strideScan_first (ts : List TCB) :
    ∀ (idx : Nat) (acc : Nat × Nat), (strideScan ts idx acc).2 < acc.2 →
      ∀ k, k < ts.length → idx + k < (strideScan ts idx acc).1 →
        (ts.getD k tcbDefault).status = TaskStatus.Ready →
        (strideScan ts idx acc).2 < (ts.getD k tcbDefault).stride := by
  induction ts with
  | nil =>
    intro idx acc hlt
    rw [strideScan] at hlt
    omega
  | cons t ts ih =>
    intro idx acc hlt k hk hkm hr
    by_cases hcond : t.status = TaskStatus.Ready ∧ t.stride < acc.2
    · rw [strideScan, if_pos hcond] at hlt hkm ⊢
      by_cases himp : (strideScan ts (idx + 1) (idx, t.stride)).2 < t.stride
      · cases k with
        | zero =>
          rw [List.getD_cons_zero]
          exact himp
        | succ k =>
          rw [List.getD_cons_succ] at hr ⊢
          exact ih (idx + 1) (idx, t.stride) himp k (by simpa using hk)
            (by omega) hr
      · have hle := strideScan_snd_le ts (idx + 1) (idx, t.stride)
        simp only at hle
        have heq : (strideScan ts (idx + 1) (idx, t.stride)).2 = t.stride := by
          omega
        have hidx := strideScan_stable ts (idx + 1) (idx, t.stride) heq
        simp only at hidx
        omega
    · rw [strideScan, if_neg hcond] at hlt hkm ⊢
      cases k with
      | zero =>
        rw [List.getD_cons_zero]
        have hge : acc.2 ≤ t.stride := by
          by_contra hcon
          rw [List.getD_cons_zero] at hr
          exact hcond ⟨hr, by omega⟩
        omega
      | succ k =>
        rw [List.getD_cons_succ] at hr ⊢
        exact ih (idx + 1) acc hlt k (by simpa using hk) (by omega) hr

/-- C2 counterexample: both queued tasks are `Ready`, with strides
`0x8000_0000` and `0x7FFF_FFFF`.  Because neither stride is strictly below
the scan's initial sentinel `0x7FFF_FFFF`, `fetch` keeps `min_index = 0`
and removes the task whose stride is the larger `0x8000_0000` (bumping it by
`65536 / 16`), leaving the smaller-stride `Ready` task in the queue —
violating the smallest-stride selection the claim states. -/
theorem fetch_sentinel_cx :
    fetch 65536 [⟨TaskStatus.Ready, 0x80000000, 16⟩,
        ⟨TaskStatus.Ready, 0x7FFFFFFF, 16⟩] =
      some (⟨TaskStatus.Ready, 0x80001000, 16⟩,
        [⟨TaskStatus.Ready, 0x7FFFFFFF, 16⟩]) ∧
    (0x7FFFFFFF : Nat) < 0x80000000 := by
  constructor
  · rfl
  · norm_num

/-- C2 amended: whenever some queued task is `Ready` with stride strictly
below the sentinel `0x7FFF_FFFF`, `TaskManager::fetch` removes and returns
the queued `Ready` task of smallest stride (ties to the earliest queue
position), incrementing exactly that task's stride by
`BIG_STRIDE / priority`; tasks whose stride has reached the sentinel, and
states where no task is `Ready`, fall back to removing index 0. -/
theorem fetch_spec (B : Nat) (q : List TCB) (i : Nat)
    (hi : i < q.length)
    (hr : (q.getD i tcbDefault).status = TaskStatus.Ready)
    (hs : (q.getD i tcbDefault).stride < 0x7FFFFFFF) :
    (strideScan q 0 (0, 0x7FFFFFFF)).1 < q.length ∧
    (q.getD (strideScan q 0 (0, 0x7FFFFFFF)).1 tcbDefault).status =
      TaskStatus.Ready ∧
    (∀ j, j < q.length → (q.getD j tcbDefault).status = TaskStatus.Ready →
      (q.getD (strideScan q 0 (0, 0x7FFFFFFF)).1 tcbDefault).stride ≤
        (q.getD j tcbDefault).stride) ∧
    (∀ j, j < (strideScan q 0 (0, 0x7FFFFFFF)).1 →
      (q.getD j tcbDefault).status = TaskStatus.Ready →
      (q.getD (strideScan q 0 (0, 0x7FFFFFFF)).1 tcbDefault).stride <
        (q.getD j tcbDefault).stride) ∧
    fetch B q = some
      ({ q.getD (strideScan q 0 (0, 0x7FFFFFFF)).1 tcbDefault with
          stride := (q.getD (strideScan q 0 (0, 0x7FFFFFFF)).1 tcbDefault).stride +
            B / (q.getD (strideScan q 0 (0, 0x7FFFFFFF)).1 tcbDefault).priority },
        q.eraseIdx (strideScan q 0 (0, 0x7FFFFFFF)).1) := by
  have hlt : (strideScan q 0 (0, 0x7FFFFFFF)).2 < 0x7FFFFFFF :=
    lt_of_le_of_lt (strideScan_min q 0 (0, 0x7FFFFFFF) i hi hr) hs
  obtain ⟨k, hk, h1, hready, hstr⟩ := strideScan_found q 0 (0, 0x7FFFFFFF) hlt
  have hm : (strideScan q 0 (0, 0x7FFFFFFF)).1 = k := by omega
  have hmlen : (strideScan q 0 (0, 0x7FFFFFFF)).1 < q.length := by omega
  refine ⟨hmlen, ?_, ?_, ?_, ?_⟩
  · rw [hm]
    exact hready
  · intro j hj hjr
    rw [hm, hstr]
    exact strideScan_min q 0 (0, 0x7FFFFFFF) j hj hjr
  · intro j hj hjr
    rw [hm, hstr]
    exact strideScan_first q 0 (0, 0x7FFFFFFF) hlt j (by omega) (by omega) hjr
  · rw [fetch]
    have hget : q.get? (strideScan q 0 (0, 0x7FFFFFFF)).1 =
        some (q.getD (strideScan q 0 (0, 0x7FFFFFFF)).1 tcbDefault) := by
      rw [List.get?_eq_get hmlen, List.getD_eq_get q tcbDefault hmlen]
    rw [hget]

/-- C2 witness: with the ready queue `[Running stride 0, Ready stride 7,
Ready stride 7]` the scan selects index 1 (earliest of the tie) and `fetch`
removes it, its stride bumped by `10 / 16 = 0`. -/
theorem fetch_spec_witness :
    fetch 10 [⟨TaskStatus.Running, 0, 16⟩, ⟨TaskStatus.Ready, 7, 16⟩,
        ⟨TaskStatus.Ready, 7, 16⟩] =
      some (⟨TaskStatus.Ready, 7, 16⟩,
        [⟨TaskStatus.Running, 0, 16⟩, ⟨TaskStatus.Ready, 7, 16⟩]) := by
  exact (fetch_spec 10 [⟨TaskStatus.Running, 0, 16⟩, ⟨TaskStatus.Ready, 7, 16⟩,
    ⟨TaskStatus.Ready, 7, 16⟩] 1 (by decide) (by decide) (by decide)).2.2.2.2

/-- `trailing_ones` is the index of the lowest clear bit: that bit is clear
and every bit below it is set. -/
theorem trailingOnes_spec (w : Nat) :
    Nat.testBit w (trailingOnes w) = false ∧
      ∀ j, j < trailingOnes w → Nat.testBit w j = true := by
  induction w using Nat.strong_induction_on with
  | _ w ih =>
    by_cases h : w % 2 = 1
    · have hw : 0 < w := by omega
      have hlt : w / 2 < w := Nat.div_lt_self hw (by omega)
      obtain ⟨ih1, ih2⟩ := ih (w / 2) hlt
      rw [trailingOnes, dif_pos h]
      constructor
      · rw [Nat.testBit_succ]
        exact ih1
      · intro j hj
        cases j with
        | zero =>
          rw [Nat.testBit_zero]
          simp [h]
        | succ j =>
          rw [Nat.testBit_succ]
          exact ih2 j (by omega)
    · rw [trailingOnes, dif_neg h]
      constructor
      · rw [Nat.testBit_zero]
        simp [h]
      · intro j hj
        omega

/-- A `u64`-sized word other than `u64::MAX` has its lowest clear bit below
bit 64. -/
theorem trailingOnes_lt_of_ne (n w : Nat) (h1 : w < 2 ^ n)
    (h2 : w ≠ 2 ^ n - 1) : trailingOnes w < n := by
  by_contra hcon
  push_neg at hcon
  apply h2
  apply Nat.eq_of_testBit_eq
  intro i
  rw [Nat.testBit_two_pow_sub_one]
  by_cases hi : i < n
  · have hset := (trailingOnes_spec w).2 i (by omega)
    simp [hset, hi]
  · have hw : w < 2 ^ i :=
      lt_of_lt_of_le h1 (Nat.pow_le_pow_right (by omega) (by omega))
    rw [Nat.testBit_lt_two_pow hw]
    simp [hi]

/-- Or-ing in `1 << i` sets exactly bit `i`. -/
theorem testBit_or_two_pow (w i j : Nat) :
    Nat.testBit (w ||| 2 ^ i) j = (Nat.testBit w j || decide (j = i)) := by
  rw [Nat.testBit_or, Nat.testBit_two_pow]
  by_cases h : i = j
  · simp [h]
  · have h2 : ¬ j = i := fun hc => h hc.symm
    simp [h, h2]

/-- The assert of `Bitmap::dealloc`: `w & (1 << i) = 0` iff bit `i` is
clear. -/
theorem and_two_pow_eq_zero_iff (w i : Nat) :
    w &&& 2 ^ i = 0 ↔ Nat.testBit w i = false := by
  rw [Nat.and_two_pow]
  have hp : (0:Nat) < 2 ^ i := pow_pos (by norm_num) i
  cases h : Nat.testBit w i
  · simp
  · simp only [Bool.toNat_true, one_mul]
    constructor
    · intro hc
      omega
    · intro hc
      exact absurd hc (by simp)

/-- Dividing out `2 ^ j` after subtracting `2 ^ i` (for `j ≤ i`, when the
quotient is large enough). -/
theorem div_sub_pow (w i j : Nat) (hij : j ≤ i)
    (hq : 2 ^ (i - j) ≤ w / 2 ^ j) :
    (w - 2 ^ i) / 2 ^ j = w / 2 ^ j - 2 ^ (i - j) := by
  have hpj : (0:Nat) < 2 ^ j := pow_pos (by norm_num) j
  obtain ⟨d, hd⟩ : ∃ d, w / 2 ^ j = 2 ^ (i - j) + d :=
    ⟨w / 2 ^ j - 2 ^ (i - j), by omega⟩
  have hpow : 2 ^ j * 2 ^ (i - j) = 2 ^ i := by
    rw [← pow_add]
    congr 1
    omega
  have hwEq : w = 2 ^ i + (2 ^ j * d + w % 2 ^ j) := by
    calc w = 2 ^ j * (w / 2 ^ j) + w % 2 ^ j := (Nat.div_add_mod w (2 ^ j)).symm
      _ = 2 ^ j * (2 ^ (i - j) + d) + w % 2 ^ j := by rw [hd]
      _ = 2 ^ j * 2 ^ (i - j) + (2 ^ j * d + w % 2 ^ j) := by ring
      _ = 2 ^ i + (2 ^ j * d + w % 2 ^ j) := by rw [hpow]
  have hsub : w - 2 ^ i = 2 ^ j * d + w % 2 ^ j := by
    conv_lhs => rw [hwEq]
    exact Nat.add_sub_cancel_left _ _
  rw [hsub, Nat.mul_add_div hpj, Nat.div_eq_of_lt (Nat.mod_lt w hpj),
    add_zero, hd]
  omega

/-- Subtracting `1 << i` from a word whose bit `i` is set clears exactly
bit `i`. -/
theorem testBit_sub_two_pow (w i : Nat) (h : Nat.testBit w i = true)
    (j : Nat) :
    Nat.testBit (w - 2 ^ i) j = if j = i then false else Nat.testBit w j := by
  have hpj : (0:Nat) < 2 ^ j := pow_pos (by norm_num) j
  have hle : 2 ^ i ≤ w := Nat.testBit_implies_ge h
  have hdiv : w / 2 ^ i % 2 = 1 := by
    rw [Nat.testBit_to_div_mod] at h
    exact of_decide_eq_true h
  rcases lt_trichotomy j i with hj | hj | hj
  · rw [if_neg (by omega)]
    have hq : 2 ^ (i - j) ≤ w / 2 ^ j := by
      have hmono : 2 ^ i / 2 ^ j ≤ w / 2 ^ j := Nat.div_le_div_right hle
      rwa [Nat.pow_div (by omega) (by norm_num)] at hmono
    have hkey := div_sub_pow w i j (by omega) hq
    have heven : 2 ^ (i - j) % 2 = 0 := by
      have h2 : i - j = (i - j - 1) + 1 := by omega
      rw [h2, pow_succ]
      omega
    rw [Nat.testBit_to_div_mod, Nat.testBit_to_div_mod, hkey]
    have hmod : (w / 2 ^ j - 2 ^ (i - j)) % 2 = w / 2 ^ j % 2 := by omega
    rw [hmod]
  · subst hj
    rw [if_pos rfl]
    have hq : 2 ^ (j - j) ≤ w / 2 ^ j := by
      rw [Nat.sub_self, pow_zero]
      rw [Nat.one_le_div_iff (pow_pos (by norm_num) j)]
      exact hle
    have hkey := div_sub_pow w j j (le_refl j) hq
    rw [Nat.sub_self, pow_zero] at hkey
    rw [Nat.testBit_to_div_mod, hkey]
    have hzero : (w / 2 ^ j - 1) % 2 = 0 := by omega
    rw [hzero]
    rfl
  · rw [if_neg (by omega)]
    have hrbit : Nat.testBit (w % 2 ^ j) i = true := by
      rw [Nat.testBit_mod_two_pow, h]
      simp [hj]
    have hrge : 2 ^ i ≤ w % 2 ^ j := Nat.testBit_implies_ge hrbit
    have hw := Nat.div_add_mod w (2 ^ j)
    have hsub : w - 2 ^ i = 2 ^ j * (w / 2 ^ j) + (w % 2 ^ j - 2 ^ i) := by
      generalize hP : 2 ^ j * (w / 2 ^ j) = P at hw ⊢
      generalize hR : w % 2 ^ j = R at hw hrge ⊢
      generalize hQ : 2 ^ i = Q at hrge ⊢
      omega
    have hrlt : w % 2 ^ j - 2 ^ i < 2 ^ j :=
      lt_of_le_of_lt (Nat.sub_le _ _) (Nat.mod_lt w hpj)
    have hkey : (w - 2 ^ i) / 2 ^ j = w / 2 ^ j := by
      rw [hsub, Nat.mul_add_div hpj, Nat.div_eq_of_lt hrlt, add_zero]
    rw [Nat.testBit_to_div_mod, Nat.testBit_to_div_mod, hkey]

/-- The word scan finds nothing iff every word of the block is all ones. -/
theorem firstNonFull_eq_none (ws : List Nat) :
    firstNonFull ws = none ↔ ∀ w ∈ ws, w = U64MAX := by
  induction ws with
  | nil => simp [firstNonFull]
  | cons w ws ih =>
    by_cases h0 : w = U64MAX
    · rw [firstNonFull, if_pos h0, Option.map_eq_none']
      constructor
      · intro h d hd
        rcases List.mem_cons.mp hd with h1 | h1
        · exact h1.trans h0
        · exact ih.mp h d h1
      · intro h
        exact ih.mpr (fun d hd => h d (List.mem_cons_of_mem w hd))
    · rw [firstNonFull, if_neg h0]
      constructor
      · intro h
        exact absurd h (by simp)
      · intro h
        exact absurd (h w (List.mem_cons_self w ws)) h0

/-- The word scan returns the first word that is not all ones. -/
theorem firstNonFull_some (ws : List Nat) :
    ∀ i w, firstNonFull ws = some (i, w) →
      i < ws.length ∧ ws.getD i 0 = w ∧ w ≠ U64MAX ∧
        ∀ j, j < i → ws.getD j 0 = U64MAX := by
  induction ws with
  | nil =>
    intro i w h
    simp [firstNonFull] at h
  | cons w0 ws ih =>
    intro i w h
    by_cases h0 : w0 = U64MAX
    · rw [firstNonFull, if_pos h0] at h
      rw [Option.map_eq_some'] at h
      obtain ⟨⟨i', w'⟩, hp, hpe⟩ := h
      rw [Prod.mk.injEq] at hpe
      obtain ⟨hi, hw⟩ := hpe
      subst hi
      subst hw
      obtain ⟨ha, hb, hc, hrest⟩ := ih i' w' hp
      refine ⟨by simpa using ha, ?_, hc, ?_⟩
      · rw [List.getD_cons_succ]
        exact hb
      · intro j hj
        cases j with
        | zero =>
          rw [List.getD_cons_zero]
          exact h0
        | succ j =>
          rw [List.getD_cons_succ]
          exact hrest j (by omega)
    · rw [firstNonFull, if_neg h0] at h
      rw [Option.some.injEq, Prod.mk.injEq] at h
      obtain ⟨hi, hw⟩ := h
      subst hi
      subst hw
      exact ⟨by simp, List.getD_cons_zero, h0, by omega⟩

/-- A block allocates nothing iff every word is all ones. -/
theorem bitmapBlockAlloc_eq_none (blk : List Nat) :
    bitmapBlockAlloc blk = none ↔ ∀ w ∈ blk, w = U64MAX := by
  rw [← firstNonFull_eq_none]
  rw [bitmapBlockAlloc]
  cases h : firstNonFull blk <;> simp

/-- A successful block allocation decomposes as first non-full word plus its
lowest clear bit. -/
theorem bitmapBlockAlloc_eq_some (blk : List Nat) (pos : Nat)
    (blk2 : List Nat) (h : bitmapBlockAlloc blk = some (pos, blk2)) :
    ∃ wpos, wpos < blk.length ∧
      (∀ j, j < wpos → blk.getD j 0 = U64MAX) ∧
      blk.getD wpos 0 ≠ U64MAX ∧
      pos = wpos * 64 + trailingOnes (blk.getD wpos 0) ∧
      blk2 = blk.set wpos (blk.getD wpos 0 ||| 2 ^ trailingOnes (blk.getD wpos 0)) := by
  rw [bitmapBlockAlloc] at h
  cases hf : firstNonFull blk with
  | none =>
    rw [hf] at h
    exact absurd h (by simp)
  | some p =>
    rw [hf] at h
    obtain ⟨i, w⟩ := p
    obtain ⟨ha, hb, hc, hrest⟩ := firstNonFull_some blk i w hf
    rw [Option.some.injEq, Prod.mk.injEq] at h
    obtain ⟨hpos, hblk⟩ := h
    exact ⟨i, ha, hrest, hb ▸ hc, by rw [hb, hpos], by rw [hb, hblk]⟩

/-- The block loop allocates nothing iff every bit of every block is set. -/
theorem bitmapAllocAux_eq_none (blocks : List (List Nat)) :
    ∀ bid, bitmapAllocAux blocks bid = none ↔
      ∀ blk ∈ blocks, ∀ w ∈ blk, w = U64MAX := by
  induction blocks with
  | nil =>
    intro bid
    simp [bitmapAllocAux]
  | cons blk blks ih =>
    intro bid
    rw [bitmapAllocAux]
    cases hb : bitmapBlockAlloc blk with
    | some p =>
      constructor
      · intro h
        exact absurd h (by simp)
      · intro h
        have := (bitmapBlockAlloc_eq_none blk).mpr
          (fun w hw => h blk (List.mem_cons_self blk blks) w hw)
        rw [this] at hb
        exact absurd hb (by simp)
    | none =>
      rw [Option.map_eq_none']
      constructor
      · intro h d hd
        rcases List.mem_cons.mp hd with h1 | h1
        · intro w hw
          exact (bitmapBlockAlloc_eq_none blk).mp hb w (h1 ▸ hw)
        · exact (ih (bid + 1)).mp h d h1
      · intro h
        exact (ih (bid + 1)).mpr
          (fun d hd => h d (List.mem_cons_of_mem blk hd))

/-- A successful allocation of the block loop: all blocks before the chosen
one are full, and the chosen block allocates. -/
theorem bitmapAllocAux_eq_some (blocks : List (List Nat)) :
    ∀ bid n blocks2, bitmapAllocAux blocks bid = some (n, blocks2) →
      ∃ b pos blk2, b < blocks.length ∧
        (∀ j, j < b → ∀ w ∈ blocks.getD j [], w = U64MAX) ∧
        bitmapBlockAlloc (blocks.getD b []) = some (pos, blk2) ∧
        n = (bid + b) * BLOCK_BITS + pos ∧
        blocks2 = blocks.set b blk2 := by
  induction blocks with
  | nil =>
    intro bid n blocks2 h
    simp [bitmapAllocAux] at h
  | cons blk blks ih =>
    intro bid n blocks2 h
    rw [bitmapAllocAux] at h
    cases hb : bitmapBlockAlloc blk with
    | some p =>
      rw [hb, Option.some.injEq, Prod.mk.injEq] at h
      obtain ⟨hn, hblocks⟩ := h
      refine ⟨0, p.1, p.2, by simp, by omega, ?_, ?_, ?_⟩
      · rw [List.getD_cons_zero]
        exact hb
      · rw [Nat.add_zero]
        exact hn.symm
      · rw [← hblocks]
        rfl
    | none =>
      rw [hb, Option.map_eq_some'] at h
      obtain ⟨r, hr, hre⟩ := h
      rw [Prod.mk.injEq] at hre
      obtain ⟨hn, hblocks⟩ := hre
      obtain ⟨b, pos, blk2, h1, h2, h3, h4, h5⟩ := ih (bid + 1) r.1 r.2 hr
      refine ⟨b + 1, pos, blk2, by simpa using h1, ?_, ?_, ?_, ?_⟩
      · intro j hj
        cases j with
        | zero =>
          intro w hw
          rw [List.getD_cons_zero] at hw
          exact (bitmapBlockAlloc_eq_none blk).mp hb w hw
        | succ j =>
          rw [List.getD_cons_succ]
          exact h2 j (by omega)
      · rw [List.getD_cons_succ]
        exact h3
      · rw [← hn, h4]
        have harith : bid + 1 + b = bid + (b + 1) := by omega
        rw [harith]
      · rw [← hblocks, h5]
        rfl

/-- C8: `Bitmap::alloc` scans blocks in order and fails (`None`) iff every
bit of every block is set; a successful allocation picks the first block
with a non-full word, that block's first non-full word, and that word's
lowest clear bit (clear, with all lower bits set and the index below 64 for
`u64` words), returns `block * BLOCK_BITS + word * 64 + bit`, and sets
exactly that bit (or-ing `1 << bit`).  `Bitmap::dealloc(bit)` panics iff the
addressed bit is clear, and otherwise clears exactly that bit. -/
theorem bitmap_spec (blocks : List (List Nat)) (bit : Nat)
    (hwf : ∀ blk ∈ blocks, ∀ w ∈ blk, w < 2 ^ 64) :
    (bitmapAlloc blocks = none ↔ ∀ blk ∈ blocks, ∀ w ∈ blk, w = U64MAX) ∧
    (∀ n blocks2, bitmapAlloc blocks = some (n, blocks2) →
      ∃ b wpos, b < blocks.length ∧
        (∀ j, j < b → ∀ w ∈ blocks.getD j [], w = U64MAX) ∧
        wpos < (blocks.getD b []).length ∧
        (∀ j, j < wpos → (blocks.getD b []).getD j 0 = U64MAX) ∧
        (blocks.getD b []).getD wpos 0 ≠ U64MAX ∧
        trailingOnes ((blocks.getD b []).getD wpos 0) < 64 ∧
        Nat.testBit ((blocks.getD b []).getD wpos 0)
          (trailingOnes ((blocks.getD b []).getD wpos 0)) = false ∧
        (∀ j, j < trailingOnes ((blocks.getD b []).getD wpos 0) →
          Nat.testBit ((blocks.getD b []).getD wpos 0) j = true) ∧
        n = b * BLOCK_BITS + wpos * 64 +
          trailingOnes ((blocks.getD b []).getD wpos 0) ∧
        blocks2 = blocks.set b ((blocks.getD b []).set wpos
          ((blocks.getD b []).getD wpos 0 |||
            2 ^ trailingOnes ((blocks.getD b []).getD wpos 0))) ∧
        (∀ j, Nat.testBit ((blocks.getD b []).getD wpos 0 |||
            2 ^ trailingOnes ((blocks.getD b []).getD wpos 0)) j =
          (Nat.testBit ((blocks.getD b []).getD wpos 0) j ||
            decide (j = trailingOnes ((blocks.getD b []).getD wpos 0))))) ∧
    (bitmapDealloc blocks bit = none ↔
      Nat.testBit ((blocks.getD (bit / BLOCK_BITS) []).getD
        (bit % BLOCK_BITS / 64) 0) (bit % 64) = false) ∧
    (Nat.testBit ((blocks.getD (bit / BLOCK_BITS) []).getD
        (bit % BLOCK_BITS / 64) 0) (bit % 64) = true →
      bitmapDealloc blocks bit = some (blocks.set (bit / BLOCK_BITS)
        ((blocks.getD (bit / BLOCK_BITS) []).set (bit % BLOCK_BITS / 64)
          ((blocks.getD (bit / BLOCK_BITS) []).getD (bit % BLOCK_BITS / 64) 0 -
            2 ^ (bit % 64)))) ∧
      (∀ j, Nat.testBit ((blocks.getD (bit / BLOCK_BITS) []).getD
          (bit % BLOCK_BITS / 64) 0 - 2 ^ (bit % 64)) j =
        if j = bit % 64 then false
        else Nat.testBit ((blocks.getD (bit / BLOCK_BITS) []).getD
          (bit % BLOCK_BITS / 64) 0) j)) := by
  refine ⟨?_, ?_, ?_, ?_⟩
  · rw [bitmapAlloc]
    exact bitmapAllocAux_eq_none blocks 0
  · intro n blocks2 h
    rw [bitmapAlloc] at h
    obtain ⟨b, pos, blk2, h1, h2, h3, h4, h5⟩ :=
      bitmapAllocAux_eq_some blocks 0 n blocks2 h
    obtain ⟨wpos, g1, g2, g3, g4, g5⟩ := bitmapBlockAlloc_eq_some _ pos blk2 h3
    have hblkmem : blocks.getD b [] ∈ blocks := by
      rw [List.getD_eq_get blocks [] h1]
      exact List.get_mem blocks b h1
    have hwmem : (blocks.getD b []).getD wpos 0 ∈ blocks.getD b [] := by
      rw [List.getD_eq_get _ 0 g1]
      exact List.get_mem _ wpos g1
    have hwlt : (blocks.getD b []).getD wpos 0 < 2 ^ 64 :=
      hwf _ hblkmem _ hwmem
    have hip : trailingOnes ((blocks.getD b []).getD wpos 0) < 64 :=
      trailingOnes_lt_of_ne 64 _ hwlt g3
    refine ⟨b, wpos, h1, h2, g1, g2, g3, hip, (trailingOnes_spec _).1,
      (trailingOnes_spec _).2, ?_, ?_, fun j => testBit_or_two_pow _ _ j⟩
    · rw [h4, g4, Nat.zero_add]
      ring
    · rw [h5, g5]
  · simp only [bitmapDealloc]
    by_cases hc : (blocks.getD (bit / BLOCK_BITS) []).getD
        (bit % BLOCK_BITS / 64) 0 &&& 2 ^ (bit % 64) = 0
    · rw [if_pos hc]
      exact iff_of_true rfl ((and_two_pow_eq_zero_iff _ _).mp hc)
    · rw [if_neg hc]
      have ht : Nat.testBit ((blocks.getD (bit / BLOCK_BITS) []).getD
          (bit % BLOCK_BITS / 64) 0) (bit % 64) = true := by
        cases h : Nat.testBit ((blocks.getD (bit / BLOCK_BITS) []).getD
            (bit % BLOCK_BITS / 64) 0) (bit % 64)
        · exact absurd ((and_two_pow_eq_zero_iff _ _).mpr h) hc
        · rfl
      exact iff_of_false (by simp) (by rw [ht]; simp)
  · intro hbit
    have hc : ¬((blocks.getD (bit / BLOCK_BITS) []).getD
        (bit % BLOCK_BITS / 64) 0 &&& 2 ^ (bit % 64) = 0) := by
      intro hc0
      rw [(and_two_pow_eq_zero_iff _ _).mp hc0] at hbit
      exact Bool.noConfusion hbit
    constructor
    · simp only [bitmapDealloc]
      rw [if_neg hc]
    · intro j
      exact testBit_sub_two_pow _ _ hbit j

/-- C8 witness: deallocating bit 3 in the single word `8 = 0b1000` clears it
to zero. -/
theorem bitmap_spec_witness :
    bitmapDealloc [[8]] 3 = some [[0]] := by
  exact ((bitmap_spec [[8]] 3 (by decide)).2.2.2 (by decide)).1

/-- `getD` at an index other than the one being set. -/
theorem getD_set_ne {α : Type} (l : List α) (i j : Nat) (x d : α)
    (h : i ≠ j) : (l.set i x).getD j d = l.getD j d := by
  rw [List.getD_eq_getElem?_getD, List.getD_eq_getElem?_getD,
    List.getElem?_set_ne h]

/-- `getD` at the index being set. -/
theorem getD_set_self {α : Type} (l : List α) (i : Nat) (x d : α)
    (h : i < l.length) : (l.set i x).getD i d = x := by
  rw [List.getD_eq_getElem?_getD, List.getElem?_set_self h]
  rfl

/-- `getD` inside the left part of an append. -/
theorem getD_append_left {α : Type} (l₁ l₂ : List α) (n : Nat) (d : α)
    (h : n < l₁.length) : (l₁ ++ l₂).getD n d = l₁.getD n d := by
  rw [List.getD_eq_getElem?_getD, List.getD_eq_getElem?_getD,
    List.getElem?_append_left h]

/-- `getD` at the appended element. -/
theorem getD_append_length {α : Type} (l : List α) (x d : α) :
    (l ++ [x]).getD l.length d = x := by
  rw [List.getD_eq_getElem?_getD, List.getElem?_concat_length]
  rfl

/-- On an invariant-satisfying state, `available_read` counts the bytes
written but not yet read. -/
theorem pipeInv_availRead (s : PipeRingBuffer) (w : List Nat) (r : Nat)
    (h : pipeInv s w r) : availableRead s = w.length - r := by
  obtain ⟨h1, h2, h3, h4, h5, h6, h7⟩ := h
  rw [availableRead, h4, h5, h6]
  simp only [RING_BUFFER_SIZE]
  by_cases hz : w.length - r = 0
  · rw [if_pos hz]
    simp
    omega
  · rw [if_neg hz]
    by_cases hf : w.length - r = 32
    · rw [if_pos hf]
      have hne : RingBufferStatus.Full ≠ RingBufferStatus.Empty := by decide
      rw [if_neg hne]
      split <;> omega
    · rw [if_neg hf]
      have hne : RingBufferStatus.Normal ≠ RingBufferStatus.Empty := by decide
      rw [if_neg hne]
      split <;> omega

/-- On an invariant-satisfying state, read and write capacity sum to 32. -/
theorem pipeInv_sum (s : PipeRingBuffer) (w : List Nat) (r : Nat)
    (h : pipeInv s w r) : availableRead s + availableWrite s = 32 := by
  have har := pipeInv_availRead s w r h
  obtain ⟨h1, h2, h3, h4, h5, h6, h7⟩ := h
  rw [availableWrite]
  simp only [RING_BUFFER_SIZE]
  by_cases hf : s.status = RingBufferStatus.Full
  · rw [if_pos hf]
    rw [h6] at hf
    have hfull : w.length - r = 32 := by
      by_cases hz : w.length - r = 0
      · rw [if_pos hz] at hf
        exact absurd hf (by decide)
      · rw [if_neg hz] at hf
        by_cases h32 : w.length - r = 32
        · exact h32
        · rw [if_neg h32] at hf
          exact absurd hf (by decide)
    omega
  · rw [if_neg hf]
    omega

/-- `write_byte` under the guard `available_write() > 0` preserves the
invariant, appending the byte to the written stream. -/
theorem pipeInv_write (s : PipeRingBuffer) (w : List Nat) (r b : Nat)
    (h : pipeInv s w r) (hav : 0 < availableWrite s) :
    pipeInv (writeByte s b) (w ++ [b]) r := by
  have har := pipeInv_availRead s w r h
  obtain ⟨h1, h2, h3, h4, h5, h6, h7⟩ := h
  have hlt : w.length - r < 32 := by
    by_contra hc
    push_neg at hc
    have hfull : s.status = RingBufferStatus.Full := by
      rw [h6, if_neg (by omega), if_pos (by omega)]
    rw [availableWrite, if_pos hfull] at hav
    omega
  have hlen : (w ++ [b]).length = w.length + 1 := by simp
  refine ⟨by omega, by omega, ?_, ?_, ?_, ?_, ?_⟩
  · show (s.arr.set s.tail b).length = 32
    rw [List.length_set]
    exact h3
  · exact h4
  · show (s.tail + 1) % RING_BUFFER_SIZE = (w ++ [b]).length % 32
    rw [h5, hlen]
    simp only [RING_BUFFER_SIZE]
    omega
  · show (if (s.tail + 1) % RING_BUFFER_SIZE = s.head then RingBufferStatus.Full
        else RingBufferStatus.Normal) = _
    rw [h5, h4, hlen]
    simp only [RING_BUFFER_SIZE]
    by_cases hf : w.length + 1 - r = 32
    · rw [if_pos (by omega), if_neg (by omega), if_pos hf]
    · rw [if_neg (by omega), if_neg (by omega), if_neg hf]
  · intro k hk1 hk2
    rw [hlen] at hk2
    show (s.arr.set s.tail b).getD (k % 32) 0 = (w ++ [b]).getD k 0
    rw [h5]
    by_cases hk : k = w.length
    · subst hk
      rw [getD_set_self s.arr _ b 0 (by rw [h3]; omega)]
      rw [getD_append_length]
    · have hklt : k < w.length := by omega
      rw [getD_set_ne s.arr _ _ b 0 (by omega)]
      rw [getD_append_left w [b] k 0 hklt]
      exact h7 k hk1 hklt

/-- `read_byte` under the guard `available_read() > 0` preserves the
invariant, consuming one byte. -/
theorem pipeInv_read (s : PipeRingBuffer) (w : List Nat) (r : Nat)
    (h : pipeInv s w r) (hav : 0 < availableRead s) :
    pipeInv (readByte s).2 w (r + 1) := by
  have har := pipeInv_availRead s w r h
  obtain ⟨h1, h2, h3, h4, h5, h6, h7⟩ := h
  have hpos : r < w.length := by omega
  refine ⟨by omega, by omega, h3, ?_, h5, ?_, ?_⟩
  · show (s.head + 1) % RING_BUFFER_SIZE = (r + 1) % 32
    rw [h4]
    simp only [RING_BUFFER_SIZE]
    omega
  · show (if (s.head + 1) % RING_BUFFER_SIZE = s.tail then RingBufferStatus.Empty
        else RingBufferStatus.Normal) = _
    rw [h4, h5]
    simp only [RING_BUFFER_SIZE]
    by_cases he : w.length - (r + 1) = 0
    · rw [if_pos (by omega), if_pos he]
    · rw [if_neg (by omega), if_neg he, if_neg (by omega)]
  · intro k hk1 hk2
    exact h7 k (by omega) hk2

/-- C10: along every trace of guarded `write_byte`/`read_byte` calls from
`PipeRingBuffer::new()`, `available_read()` equals the number of bytes
written so far minus the number read, `available_read() + available_write()`
is always 32, and the next `read_byte` returns byte number `r` of the
written stream — bytes come out in exactly the order they were written. -/
theorem pipe_ring_buffer_spec (s : PipeRingBuffer) (w : List Nat) (r : Nat)
    (h : PipeOps s w r) :
    r ≤ w.length ∧ availableRead s = w.length - r ∧
      availableRead s + availableWrite s = 32 ∧
      (r < w.length → (readByte s).1 = w.getD r 0) := by
  have hinv : pipeInv s w r := by
    induction h with
    | nil =>
      refine ⟨Nat.le_refl 0, by simp, by simp [pipeNew, RING_BUFFER_SIZE], rfl, rfl, rfl, ?_⟩
      intro k hk1 hk2
      simp at hk2
    | write b hops havail ih => exact pipeInv_write _ _ _ b ih havail
    | read hops havail ih => exact pipeInv_read _ _ _ ih havail
  have har := pipeInv_availRead s w r hinv
  refine ⟨hinv.1, har, pipeInv_sum s w r hinv, ?_⟩
  intro hlt
  have hc := hinv.2.2.2.2.2.2 r (Nat.le_refl r) hlt
  show s.arr.getD s.head 0 = w.getD r 0
  rw [hinv.2.2.2.1]
  exact hc

/-- C10 witness: after writing the single byte 7 into a fresh pipe, one byte
is readable, capacities sum to 32, and reading returns 7. -/
theorem pipe_ring_buffer_spec_witness :
    availableRead (writeByte pipeNew 7) = 1 ∧
    (readByte (writeByte pipeNew 7)).1 = 7 := by
  have ht : PipeOps (writeByte pipeNew 7) [7] 0 :=
    PipeOps.write 7 PipeOps.nil (by decide)
  have h := pipe_ring_buffer_spec (writeByte pipeNew 7) [7] 0 ht
  exact ⟨h.2.1, h.2.2.2 (by decide)⟩

end RCoreSpec
